import Mathlib

/-!
Verification of the `token_store` crate.

Shallow embedding of `src/lib.rs` (the `token_store` crate): a heterogeneous
value store handing out clonable tokens, with shared liveness flags and
first-fit slot reuse.

Modelling choices:

* `Box<Any>` (a type-erased value) is modelled as a `Dyn`: a pair of a runtime
  type tag (`Nat`, standing for `TypeId`) and a payload (`Nat`, standing for
  the bits of the value).  `downcast_ref::<V>` succeeds exactly when the
  stored tag equals the static tag `V` of the token, mirroring the `Any`
  machinery.
* `Rc<Cell<bool>>` (the shared liveness flag) is modelled as an index into a
  heap of booleans `Store.flags`; `Rc::clone` is sharing of the index, and
  `Cell::set` is an update of the heap cell.  A fresh `Rc::new(Cell::new(true))`
  appends a `true` cell to the heap.
* A Rust panic is modelled as `Except.error`.  Operations that take
  `&mut self` are state transformers `Store → ... → Store × Except ε α` whose
  returned store reflects exactly the mutations performed before the panic
  point, so that atomicity of failures can be stated faithfully.
* `get_mut` returns `&mut V`; writing a new value `v` through that reference
  is modelled by `Store.writeVia`, which performs the same checks as
  `get_mut` and then replaces the payload of the slot.
-/

namespace TokenStore

/-- A type-erased boxed value `Box<Any>`: a runtime type tag plus a payload. -/
structure Dyn where
  tag : Nat
  val : Nat
deriving DecidableEq, Repr

/-- `Token<V>` from `src/lib.rs`: slot index `id`, shared liveness flag
`live` (modelled as an index into the flag heap), and the `PhantomData<V>`
static type binding, modelled as the runtime tag of `V`. -/
structure Token where
  id : Nat
  live : Nat
  tag : Nat
deriving DecidableEq, Repr

/-- `impl Clone for Token<V>`: same slot index, same shared flag, same type. -/
def Token.clone (t : Token) : Token :=
  { id := t.id, live := t.live, tag := t.tag }

/-- `Store` from `src/lib.rs`: `values: Vec<Option<(Box<Any>, Rc<Cell<bool>>)>>`
together with the heap of `Cell<bool>` liveness flags the `Rc`s point into. -/
structure Store where
  values : List (Option (Dyn × Nat))
  flags : List Bool
deriving DecidableEq, Repr

/-- `Store::new`. -/
def Store.new : Store :=
  { values := [], flags := [] }

/-- The two panic kinds of the crate: `useAfterRemove` is the explicit
"already removed" panic; `brokenInvariant` covers the `unwrap`/indexing
panics (empty slot, out-of-bounds index, failed downcast). -/
inductive StoreError where
  | useAfterRemove
  | brokenInvariant
deriving DecidableEq, Repr

/-- Reading `token.live.get()`: the value of the flag cell of the token.
For tokens minted by `insert` the index is always in bounds. -/
def flagAlive (s : Store) (t : Token) : Bool :=
  (s.flags[t.live]?).getD false

/-- The first-fit scan of `Store::insert`:
`self.values.iter_mut().enumerate().find(|&(_, ref s)| s.is_none())`. -/
def findEmpty : List (Option (Dyn × Nat)) → Option Nat
  | [] => none
  | none :: _ => some 0
  | some _ :: rest => (findEmpty rest).map (· + 1)

/-- `Store::insert`: box the value, mint a fresh liveness flag set to alive,
place the box in the first empty slot (or append a new slot), and return a
token carrying the chosen index and the new flag. -/
def Store.insert (s : Store) (tag v : Nat) : Store × Token :=
  let boxed : Dyn := { tag := tag, val := v }
  let fid := s.flags.length
  let flags1 := s.flags ++ [true]
  match findEmpty s.values with
  | some i =>
      ({ values := s.values.set i (some (boxed, fid)), flags := flags1 },
       { id := i, live := fid, tag := tag })
  | none =>
      ({ values := s.values ++ [some (boxed, fid)], flags := flags1 },
       { id := s.values.length, live := fid, tag := tag })

/-- `Store::get`: panic if the flag of the token is dead, then look the slot up and
downcast.  Takes `&self`, so it never mutates the store. -/
def Store.get (s : Store) (t : Token) : Except StoreError Nat :=
  if flagAlive s t = false then .error .useAfterRemove
  else
    match s.values[t.id]? with
    | none => .error .brokenInvariant
    | some none => .error .brokenInvariant
    | some (some (d, _)) =>
        if d.tag = t.tag then .ok d.val else .error .brokenInvariant

/-- `Store::get_mut`: same checks as `get`; returns the value reachable
through the `&mut V`.  No mutation is performed by the call itself, so the
store component of the result is always the input store. -/
def Store.get_mut (s : Store) (t : Token) : Store × Except StoreError Nat :=
  if flagAlive s t = false then (s, .error .useAfterRemove)
  else
    match s.values[t.id]? with
    | none => (s, .error .brokenInvariant)
    | some none => (s, .error .brokenInvariant)
    | some (some (d, _)) =>
        if d.tag = t.tag then (s, .ok d.val) else (s, .error .brokenInvariant)

/-- Writing the value `v` through the `&mut V` returned by `Store::get_mut`:
the same liveness/lookup/downcast checks, then the payload of the slot is
replaced (the slot keeps its tag and its liveness flag). -/
def Store.writeVia (s : Store) (t : Token) (v : Nat) : Store × Except StoreError Unit :=
  if flagAlive s t = false then (s, .error .useAfterRemove)
  else
    match s.values[t.id]? with
    | none => (s, .error .brokenInvariant)
    | some none => (s, .error .brokenInvariant)
    | some (some (d, fid)) =>
        if d.tag = t.tag then
          ({ values := s.values.set t.id (some ({ tag := d.tag, val := v }, fid)),
             flags := s.flags }, .ok ())
        else (s, .error .brokenInvariant)

/-- `Store::remove`: panic if the flag of the token is dead; otherwise
`take()` the slot (emptying it), set the liveness flag of the slot to dead, and
downcast-unbox the value.  The mutations (`take`, `set(false)`) happen before
the downcast, so the store component records them even on a downcast panic,
exactly as the Rust code would leave the store if the panic were caught. -/
def Store.remove (s : Store) (t : Token) : Store × Except StoreError Nat :=
  if flagAlive s t = false then (s, .error .useAfterRemove)
  else
    match s.values[t.id]? with
    | none => (s, .error .brokenInvariant)
    | some none =>
        ({ values := s.values.set t.id none, flags := s.flags },
         .error .brokenInvariant)
    | some (some (d, fid)) =>
        let s1 : Store := { values := s.values.set t.id none,
                            flags := s.flags.set fid false }
        if d.tag = t.tag then (s1, .ok d.val)
        else (s1, .error .brokenInvariant)

/-- States reachable by any sequence of `new` / `insert` / `get` / `get_mut`
/ `remove` calls, together with the list of all tokens minted so far.
`Token.clone` produces a token equal (as data) to the original, so the minted
list also covers every clone.  `get` and a non-writing `get_mut` do not
change the state, so they need no rule; a write through the reference that `get_mut` returns
is the `writeStep`. -/
inductive Reachable : Store → List Token → Prop
  | start : Reachable Store.new []
  | insertStep (s : Store) (toks : List Token) (tag v : Nat) :
      Reachable s toks →
      Reachable (s.insert tag v).1 (toks ++ [(s.insert tag v).2])
  | removeStep (s : Store) (toks : List Token) (t : Token) :
      Reachable s toks → t ∈ toks →
      Reachable (s.remove t).1 toks
  | writeStep (s : Store) (toks : List Token) (t : Token) (v : Nat) :
      Reachable s toks → t ∈ toks →
      Reachable (s.writeVia t v).1 toks

/-- A sequence of `insert` calls (used to state the slot-reuse bound):
returns the final store and the minted tokens in order. -/
def insertMany (s : Store) : List (Nat × Nat) → Store × List Token
  | [] => (s, [])
  | (tag, v) :: rest =>
      let r := s.insert tag v
      let r2 := insertMany r.1 rest
      (r2.1, r.2 :: r2.2)

/-- A sequence of `remove` calls, one per token, in order. -/
def removeMany (s : Store) : List Token → Store
  | [] => s
  | t :: rest => removeMany (s.remove t).1 rest

/-- Number of empty slots of a slot sequence. -/
def numEmpty (l : List (Option (Dyn × Nat))) : Nat :=
  (l.filter fun o => o.isNone).length

/-- The slot sequence produced by consecutive appending inserts, with flag
ids counting up from `f` (proof device for the slot-reuse bound). -/
def diagVals : List (Nat × Nat) → Nat → List (Option (Dyn × Nat))
  | [], _ => []
  | (tag, v) :: rest, f => some ({ tag := tag, val := v }, f) :: diagVals rest (f + 1)

/-- The tokens produced by consecutive appending inserts, slot ids counting
up from `i` and flag ids from `f` (proof device for the slot-reuse bound). -/
def tokList : List (Nat × Nat) → Nat → Nat → List Token
  | [], _, _ => []
  | (tag, _) :: rest, i, f =>
      { id := i, live := f, tag := tag } :: tokList rest (i + 1) (f + 1)

/-- The store/token relationship invariant: for every minted token, the flag index
is a real cell of the flag heap, and every minted token that is still alive
points at an occupied slot that holds its own liveness flag and a value of
its own type. -/
def StoreInv (s : Store) (toks : List Token) : Prop :=
  ∀ t ∈ toks,
    t.live < s.flags.length ∧
    (flagAlive s t = true →
      ∃ d, s.values[t.id]? = some (some (d, t.live)) ∧ d.tag = t.tag)

theorem findEmpty_some {l : List (Option (Dyn × Nat))} {i : Nat}
    (h : findEmpty l = some i) : l[i]? = some none := by
  induction l generalizing i with
  | nil => simp [findEmpty] at h
  | cons hd tl ih =>
    cases hd with
    | none =>
      simp [findEmpty] at h
      subst h
      simp
    | some x =>
      simp [findEmpty] at h
      obtain ⟨j, hj, rfl⟩ := h
      simpa using ih hj

theorem findEmpty_none {l : List (Option (Dyn × Nat))}
    (h : findEmpty l = none) : ∀ j : Nat, l[j]? ≠ some none := by
  induction l with
  | nil =>
    intro j hj
    rw [List.getElem?_nil] at hj
    exact Option.noConfusion hj
  | cons hd tl ih =>
    cases hd with
    | none => simp [findEmpty] at h
    | some x =>
      simp [findEmpty] at h
      intro j
      cases j with
      | zero => simp
      | succ j => simpa using ih h j

theorem insert_reuse {s : Store} {i : Nat} (h : findEmpty s.values = some i)
    (tag v : Nat) :
    s.insert tag v =
      ({ values := s.values.set i (some ({ tag := tag, val := v }, s.flags.length)),
         flags := s.flags ++ [true] },
       { id := i, live := s.flags.length, tag := tag }) := by
  unfold Store.insert
  simp [h]

theorem insert_grow {s : Store} (h : findEmpty s.values = none) (tag v : Nat) :
    s.insert tag v =
      ({ values := s.values ++ [some ({ tag := tag, val := v }, s.flags.length)],
         flags := s.flags ++ [true] },
       { id := s.values.length, live := s.flags.length, tag := tag }) := by
  unfold Store.insert
  simp [h]

theorem remove_dead {s : Store} {t : Token} (h : flagAlive s t = false) :
    s.remove t = (s, .error .useAfterRemove) := by
  unfold Store.remove
  simp [h]

theorem remove_live_ok {s : Store} {t : Token} {d : Dyn} {fid : Nat}
    (hl : flagAlive s t = true)
    (hs : s.values[t.id]? = some (some (d, fid))) (htag : d.tag = t.tag) :
    s.remove t =
      ({ values := s.values.set t.id none, flags := s.flags.set fid false },
       .ok d.val) := by
  unfold Store.remove
  simp [hl, hs, htag]

theorem writeVia_dead {s : Store} {t : Token} (h : flagAlive s t = false)
    (v : Nat) :
    s.writeVia t v = (s, .error .useAfterRemove) := by
  unfold Store.writeVia
  simp [h]

theorem writeVia_live_ok {s : Store} {t : Token} {d : Dyn} {fid : Nat}
    (hl : flagAlive s t = true)
    (hs : s.values[t.id]? = some (some (d, fid))) (htag : d.tag = t.tag)
    (v : Nat) :
    s.writeVia t v =
      ({ values := s.values.set t.id (some ({ tag := d.tag, val := v }, fid)),
         flags := s.flags }, .ok ()) := by
  unfold Store.writeVia
  simp [hl, hs, htag]

theorem get_dead {s : Store} {t : Token} (h : flagAlive s t = false) :
    s.get t = .error .useAfterRemove := by
  unfold Store.get
  simp [h]

theorem get_live_ok {s : Store} {t : Token} {d : Dyn} {fid : Nat}
    (hl : flagAlive s t = true)
    (hs : s.values[t.id]? = some (some (d, fid))) (htag : d.tag = t.tag) :
    s.get t = .ok d.val := by
  unfold Store.get
  simp [hl, hs, htag]

theorem get_mut_dead {s : Store} {t : Token} (h : flagAlive s t = false) :
    s.get_mut t = (s, .error .useAfterRemove) := by
  unfold Store.get_mut
  simp [h]

theorem get_mut_live_ok {s : Store} {t : Token} {d : Dyn} {fid : Nat}
    (hl : flagAlive s t = true)
    (hs : s.values[t.id]? = some (some (d, fid))) (htag : d.tag = t.tag) :
    s.get_mut t = (s, .ok d.val) := by
  unfold Store.get_mut
  simp [hl, hs, htag]

/-- From an occupied-slot lookup, the index is within the slot sequence. -/
theorem lt_length_of_getElem?_some {l : List (Option (Dyn × Nat))} {i : Nat}
    {x : Option (Dyn × Nat)} (h : l[i]? = some x) : i < l.length := by
  rcases List.getElem?_eq_some_iff.mp h with ⟨hlt, _⟩
  exact hlt

/-- The central invariant: every reachable state satisfies `StoreInv`. -/
theorem reachable_storeInv {s : Store} {toks : List Token}
    (h : Reachable s toks) : StoreInv s toks := by
  induction h with
  | start =>
    intro t ht
    simp at ht
  | insertStep s toks tag v _ ih =>
    intro t ht
    rcases List.mem_append.mp ht with htoks | hnew
    · -- a previously minted token
      obtain ⟨hlive, hslot⟩ := ih t htoks
      cases hfe : findEmpty s.values with
      | some i =>
        rw [insert_reuse hfe]
        dsimp only
        refine ⟨?_, ?_⟩
        · simp only [List.length_append, List.length_singleton]
          omega
        · intro halive
          have hflags : (s.flags ++ [true])[t.live]? = s.flags[t.live]? :=
            List.getElem?_append_left hlive
          have halive0 : flagAlive s t = true := by
            simpa [flagAlive, hflags] using halive
          obtain ⟨d, hd, hdt⟩ := hslot halive0
          have hne : i ≠ t.id := by
            intro heq
            rw [← heq, findEmpty_some hfe] at hd
            exact Option.noConfusion (Option.some.inj hd)
          refine ⟨d, ?_, hdt⟩
          simpa [List.getElem?_set_ne hne] using hd
      | none =>
        rw [insert_grow hfe]
        dsimp only
        refine ⟨?_, ?_⟩
        · simp only [List.length_append, List.length_singleton]
          omega
        · intro halive
          have hflags : (s.flags ++ [true])[t.live]? = s.flags[t.live]? :=
            List.getElem?_append_left hlive
          have halive0 : flagAlive s t = true := by
            simpa [flagAlive, hflags] using halive
          obtain ⟨d, hd, hdt⟩ := hslot halive0
          have hid : t.id < s.values.length := lt_length_of_getElem?_some hd
          refine ⟨d, ?_, hdt⟩
          rw [List.getElem?_append_left hid]
          exact hd
    · -- the freshly minted token
      cases hfe : findEmpty s.values with
      | some i =>
        rw [insert_reuse hfe] at hnew ⊢
        simp only [List.mem_singleton] at hnew
        subst hnew
        refine ⟨by simp, ?_⟩
        intro _
        have hi : i < s.values.length :=
          lt_length_of_getElem?_some (findEmpty_some hfe)
        exact ⟨{ tag := tag, val := v },
          by simp [List.getElem?_set_self hi], rfl⟩
      | none =>
        rw [insert_grow hfe] at hnew ⊢
        simp only [List.mem_singleton] at hnew
        subst hnew
        refine ⟨by simp, ?_⟩
        intro _
        exact ⟨{ tag := tag, val := v },
          by simp [List.getElem?_concat_length], rfl⟩
  | removeStep s toks tk _ hmem ih =>
    cases halive : flagAlive s tk with
    | false =>
      rw [remove_dead halive]
      exact ih
    | true =>
      obtain ⟨hklive, hkslot⟩ := ih tk hmem
      obtain ⟨d, hd, hdt⟩ := hkslot halive
      rw [remove_live_ok halive hd hdt]
      intro t ht
      obtain ⟨hlive, hslot⟩ := ih t ht
      refine ⟨by simpa using hlive, ?_⟩
      intro halive1
      have hlive_ne : t.live ≠ tk.live := by
        intro heq
        have : (s.flags.set tk.live false)[t.live]? = some false := by
          rw [heq]
          exact List.getElem?_set_self hklive
        simp [flagAlive, this] at halive1
      have halive0 : flagAlive s t = true := by
        simpa [flagAlive, List.getElem?_set_ne (Ne.symm hlive_ne)] using halive1
      obtain ⟨d', hd', hdt'⟩ := hslot halive0
      have hid_ne : tk.id ≠ t.id := by
        intro heq
        rw [heq, hd'] at hd
        have hpair := Option.some.inj (Option.some.inj hd)
        injection hpair with hdd hll
        exact hlive_ne hll
      refine ⟨d', ?_, hdt'⟩
      simpa [List.getElem?_set_ne hid_ne] using hd'
  | writeStep s toks tk v _ hmem ih =>
    cases halive : flagAlive s tk with
    | false =>
      rw [writeVia_dead halive]
      exact ih
    | true =>
      obtain ⟨hklive, hkslot⟩ := ih tk hmem
      obtain ⟨d, hd, hdt⟩ := hkslot halive
      rw [writeVia_live_ok halive hd hdt]
      intro t ht
      obtain ⟨hlive, hslot⟩ := ih t ht
      refine ⟨hlive, ?_⟩
      intro halive1
      have halive0 : flagAlive s t = true := halive1
      obtain ⟨d', hd', hdt'⟩ := hslot halive0
      by_cases hid : tk.id = t.id
      · have hkid : tk.id < s.values.length := lt_length_of_getElem?_some hd
        rw [hid, hd'] at hd
        have heq := Option.some.inj (Option.some.inj hd)
        injection heq with hdd hll
        refine ⟨{ tag := d.tag, val := v }, ?_, by rw [← hdd]; exact hdt'⟩
        dsimp only
        rw [hid] at hkid ⊢
        rw [List.getElem?_set_self hkid, hll]
      · refine ⟨d', ?_, hdt'⟩
        simpa [List.getElem?_set_ne hid] using hd'

/-- Cloning a token yields the very same data (same index, same shared
flag, same type binding). -/
theorem Token.clone_eq (t : Token) : t.clone = t := rfl

/-- The first-fit scan returns the lowest empty index. -/
theorem findEmpty_min {l : List (Option (Dyn × Nat))} {i : Nat}
    (h : findEmpty l = some i) : ∀ j : Nat, j < i → l[j]? ≠ some none := by
  induction l generalizing i with
  | nil => simp [findEmpty] at h
  | cons hd tl ih =>
    cases hd with
    | none =>
      simp [findEmpty] at h
      subst h
      intro j hj
      omega
    | some x =>
      simp [findEmpty] at h
      obtain ⟨k, hk, rfl⟩ := h
      intro j hj
      cases j with
      | zero => simp
      | succ j =>
        have := ih hk j (by omega)
        simpa using this


/-- Converse of the first-fit characterization: an empty slot below which
everything is occupied is the one `findEmpty` returns. -/
theorem findEmpty_of {l : List (Option (Dyn × Nat))} {i : Nat}
    (h : l[i]? = some none) (hmin : ∀ j : Nat, j < i → l[j]? ≠ some none) :
    findEmpty l = some i := by
  induction l generalizing i with
  | nil =>
    rw [List.getElem?_nil] at h
    exact Option.noConfusion h
  | cons hd tl ih =>
    cases hd with
    | none =>
      cases i with
      | zero => simp [findEmpty]
      | succ i =>
        exfalso
        exact hmin 0 (Nat.succ_pos i) (by simp)
    | some x =>
      cases i with
      | zero => simp at h
      | succ i =>
        have h' : tl[i]? = some none := by simpa using h
        have hmin' : ∀ j : Nat, j < i → tl[j]? ≠ some none := by
          intro j hj hc
          exact hmin (j + 1) (by omega) (by simpa using hc)
        simp [findEmpty, ih h' hmin']

/-- Slot sequences with no empty slot stay that way when a full slot is
appended. -/
theorem findEmpty_append_some {l : List (Option (Dyn × Nat))}
    (h : findEmpty l = none) (x : Dyn × Nat) :
    findEmpty (l ++ [some x]) = none := by
  induction l with
  | nil => simp [findEmpty]
  | cons hd tl ih =>
    cases hd with
    | none => simp [findEmpty] at h
    | some y =>
      simp [findEmpty] at h ⊢
      exact ih h

/-- Inverting a successful `remove`. -/
theorem remove_ok_inv {s s1 : Store} {t : Token} {v : Nat}
    (hrm : s.remove t = (s1, .ok v)) :
    flagAlive s t = true ∧
    ∃ d fid, s.values[t.id]? = some (some (d, fid)) ∧ d.tag = t.tag ∧
      d.val = v ∧
      s1 = { values := s.values.set t.id none, flags := s.flags.set fid false } := by
  unfold Store.remove at hrm
  cases halive : flagAlive s t with
  | false => simp [halive] at hrm
  | true =>
    simp only [halive, Bool.true_eq_false, if_false] at hrm
    cases hslot : s.values[t.id]? with
    | none => rw [hslot] at hrm; simp at hrm
    | some o =>
      cases o with
      | none => rw [hslot] at hrm; simp at hrm
      | some p =>
        obtain ⟨d, fid⟩ := p
        rw [hslot] at hrm
        by_cases htag : d.tag = t.tag
        · simp only [htag, if_true] at hrm
          obtain ⟨h1, h2⟩ := Prod.mk.injEq .. ▸ hrm
          refine ⟨rfl, d, fid, rfl, htag, ?_, h1.symm⟩
          exact (Except.ok.inj h2)
        · simp [htag] at hrm

/-- Inverting a successful write through `get_mut`. -/
theorem writeVia_ok_inv {s s1 : Store} {t : Token} {v : Nat}
    (hw : s.writeVia t v = (s1, .ok ())) :
    flagAlive s t = true ∧
    ∃ d fid, s.values[t.id]? = some (some (d, fid)) ∧ d.tag = t.tag ∧
      s1 = { values := s.values.set t.id (some ({ tag := d.tag, val := v }, fid)),
             flags := s.flags } := by
  unfold Store.writeVia at hw
  cases halive : flagAlive s t with
  | false => simp [halive] at hw
  | true =>
    simp only [halive, Bool.true_eq_false, if_false] at hw
    cases hslot : s.values[t.id]? with
    | none => rw [hslot] at hw; simp at hw
    | some o =>
      cases o with
      | none => rw [hslot] at hw; simp at hw
      | some p =>
        obtain ⟨d, fid⟩ := p
        rw [hslot] at hw
        by_cases htag : d.tag = t.tag
        · simp only [htag, if_true] at hw
          obtain ⟨h1, _⟩ := Prod.mk.injEq .. ▸ hw
          exact ⟨rfl, d, fid, rfl, htag, by rw [htag]; exact h1.symm⟩
        · simp [htag] at hw

/-- `remove` never changes the number of slots. -/
theorem remove_length (s : Store) (t : Token) :
    (s.remove t).1.values.length = s.values.length := by
  unfold Store.remove
  cases flagAlive s t with
  | false => simp
  | true =>
    simp only [Bool.true_eq_false, if_false]
    cases s.values[t.id]? with
    | none => simp
    | some o =>
      cases o with
      | none => simp
      | some p =>
        obtain ⟨d, fid⟩ := p
        by_cases htag : d.tag = t.tag <;> simp [htag]

/-- A write through `get_mut` never changes the number of slots. -/
theorem writeVia_length (s : Store) (t : Token) (v : Nat) :
    (s.writeVia t v).1.values.length = s.values.length := by
  unfold Store.writeVia
  cases flagAlive s t with
  | false => simp
  | true =>
    simp only [Bool.true_eq_false, if_false]
    cases s.values[t.id]? with
    | none => simp
    | some o =>
      cases o with
      | none => simp
      | some p =>
        obtain ⟨d, fid⟩ := p
        by_cases htag : d.tag = t.tag <;> simp [htag]

/-- Overwriting an empty slot with a full one reduces the number of empty
slots by one. -/
theorem numEmpty_set_some {l : List (Option (Dyn × Nat))} {i : Nat}
    (h : l[i]? = some none) (x : Dyn × Nat) :
    numEmpty (l.set i (some x)) + 1 = numEmpty l := by
  induction l generalizing i with
  | nil =>
    rw [List.getElem?_nil] at h
    exact Option.noConfusion h
  | cons hd tl ih =>
    cases i with
    | zero =>
      have : hd = none := by simpa using h
      subst this
      simp [numEmpty, List.filter]
    | succ i =>
      have h' : tl[i]? = some none := by simpa using h
      have := ih h'
      cases hd with
      | none => simpa [numEmpty, List.filter] using this
      | some y => simpa [numEmpty, List.filter] using this

/-- A slot sequence with no empty slot has zero empty slots. -/
theorem numEmpty_of_findEmpty_none {l : List (Option (Dyn × Nat))}
    (h : findEmpty l = none) : numEmpty l = 0 := by
  induction l with
  | nil => rfl
  | cons hd tl ih =>
    cases hd with
    | none => simp [findEmpty] at h
    | some x =>
      simp [findEmpty] at h
      simpa [numEmpty, List.filter] using ih h

/-- A slot sequence with an empty slot has a first-fit index. -/
theorem findEmpty_isSome_of_numEmpty_pos {l : List (Option (Dyn × Nat))}
    (h : 0 < numEmpty l) : ∃ i, findEmpty l = some i := by
  cases hfe : findEmpty l with
  | none =>
    rw [numEmpty_of_findEmpty_none hfe] at h
    exact absurd h (by omega)
  | some i => exact ⟨i, rfl⟩

/-- As long as at least `ws.length` slots are empty, a batch of inserts
reuses slots: the slot count is unchanged and the number of empty slots
drops by exactly the number of inserts. -/
theorem insertMany_reuse :
    ∀ (ws : List (Nat × Nat)) (s : Store), ws.length ≤ numEmpty s.values →
      (insertMany s ws).1.values.length = s.values.length ∧
      numEmpty (insertMany s ws).1.values + ws.length = numEmpty s.values
  | [], s => by
    intro _
    exact ⟨rfl, by simp [insertMany]⟩
  | (tag, v) :: rest, s => by
    intro hle
    have hpos : 0 < numEmpty s.values := by
      simp only [List.length_cons] at hle
      omega
    obtain ⟨i, hfe⟩ := findEmpty_isSome_of_numEmpty_pos hpos
    have hslot := findEmpty_some hfe
    have hnum := numEmpty_set_some hslot ({ tag := tag, val := v }, s.flags.length)
    have hstep := insert_reuse hfe tag v
    have hnum1 : numEmpty (s.insert tag v).1.values + 1 = numEmpty s.values := by
      rw [hstep]
      exact hnum
    have hlen1 : (s.insert tag v).1.values.length = s.values.length := by
      rw [hstep]
      simp
    simp only [List.length_cons] at hle
    have hrec := insertMany_reuse rest (s.insert tag v).1 (by omega)
    obtain ⟨hlen2, hnum2⟩ := hrec
    refine ⟨?_, ?_⟩
    · show (insertMany (s.insert tag v).1 rest).1.values.length = s.values.length
      rw [hlen2, hlen1]
    · show numEmpty (insertMany (s.insert tag v).1 rest).1.values
          + ((tag, v) :: rest).length = numEmpty s.values
      simp only [List.length_cons]
      omega

/-- Inserting into a store with no empty slot appends, slot after slot. -/
theorem insertMany_full :
    ∀ (vs : List (Nat × Nat)) (s : Store), findEmpty s.values = none →
      insertMany s vs =
        ({ values := s.values ++ diagVals vs s.flags.length,
           flags := s.flags ++ List.replicate vs.length true },
         tokList vs s.values.length s.flags.length)
  | [], s => by
    intro _
    simp [insertMany, diagVals, tokList]
  | (tag, v) :: rest, s => by
    intro hfull
    have hstep := insert_grow hfull tag v
    have hfull2 : findEmpty (s.insert tag v).1.values = none := by
      rw [hstep]
      exact findEmpty_append_some hfull _
    have hrec := insertMany_full rest (s.insert tag v).1 hfull2
    show ((insertMany (s.insert tag v).1 rest).1,
          (s.insert tag v).2 :: (insertMany (s.insert tag v).1 rest).2) = _
    rw [hrec, hstep]
    simp only [List.length_append, List.length_singleton]
    rw [Prod.mk.injEq]
    constructor
    · rw [Store.mk.injEq]
      constructor
      · rw [List.append_assoc]
        rfl
      · rw [List.append_assoc]
        simp only [List.length_cons, List.replicate_succ]
        rfl
    · rfl

/-- Removing, in order, the tokens minted by a run of appending inserts
that started at slot `preV.length` and flag `preF.length` empties exactly
those slots and kills exactly those flags. -/
theorem removeMany_diag :
    ∀ (vs : List (Nat × Nat)) (preV : List (Option (Dyn × Nat)))
      (preF : List Bool), preF.length = preV.length →
      removeMany
        { values := preV ++ diagVals vs preV.length,
          flags := preF ++ List.replicate vs.length true }
        (tokList vs preV.length preV.length) =
      { values := preV ++ List.replicate vs.length none,
        flags := preF ++ List.replicate vs.length false }
  | [], preV, preF => by
    intro _
    simp [removeMany, diagVals, tokList]
  | (tag, v) :: rest, preV, preF => by
    intro hlen
    have t0 : Token := { id := preV.length, live := preV.length, tag := tag }
    show removeMany ((Store.remove _ _)).1 _ = _
    have halive : flagAlive
        { values := preV ++ diagVals ((tag, v) :: rest) preV.length,
          flags := preF ++ List.replicate ((tag, v) :: rest).length true }
        { id := preV.length, live := preV.length, tag := tag } = true := by
      simp only [flagAlive, List.length_cons, List.replicate_succ]
      rw [← hlen, List.getElem?_append_right (Nat.le_refl preF.length)]
      simp
    have hslot :
        (preV ++ diagVals ((tag, v) :: rest) preV.length)[preV.length]? =
          some (some ({ tag := tag, val := v }, preV.length)) := by
      rw [List.getElem?_append_right (Nat.le_refl preV.length)]
      simp [diagVals]
    have hrm := remove_live_ok (t := { id := preV.length, live := preV.length, tag := tag })
      halive hslot rfl
    rw [hrm]
    have hv : (preV ++ diagVals ((tag, v) :: rest) preV.length).set preV.length none
        = (preV ++ [none]) ++ diagVals rest (preV.length + 1) := by
      simp only [diagVals]
      rw [List.set_append]
      simp only [Nat.lt_irrefl, if_false, Nat.sub_self, List.set_cons_zero]
      rw [List.append_cons]
    have hf : (preF ++ List.replicate ((tag, v) :: rest).length true).set preV.length false
        = (preF ++ [false]) ++ List.replicate rest.length true := by
      simp only [List.length_cons, List.replicate_succ]
      rw [← hlen, List.set_append]
      simp only [Nat.lt_irrefl, if_false, Nat.sub_self, List.set_cons_zero]
      rw [List.append_cons]
    simp only [hv, hf]
    have hrec := removeMany_diag rest (preV ++ [none]) (preF ++ [false])
      (by simp [hlen])
    have hlen1 : (preV ++ [none]).length = preV.length + 1 := by simp
    rw [hlen1] at hrec
    show removeMany
        { values := (preV ++ [none]) ++ diagVals rest (preV.length + 1),
          flags := (preF ++ [false]) ++ List.replicate rest.length true }
        (tokList rest (preV.length + 1) (preV.length + 1)) = _
    rw [hrec]
    rw [Store.mk.injEq]
    constructor
    · rw [List.append_assoc, List.length_cons, List.replicate_succ]
      rfl
    · rw [List.append_assoc, List.length_cons, List.replicate_succ]
      rfl

/-- Round-trip, stated as an equation shared by several developments below:
`get` right after `insert` observes the inserted value, on any store. -/
theorem get_insert_aux (s : Store) (tag v : Nat) :
    (s.insert tag v).1.get (s.insert tag v).2 = .ok v := by
  unfold Store.insert
  cases hfe : findEmpty s.values with
  | some i =>
    have hi : s.values[i]? = some none := findEmpty_some hfe
    have hilen : i < s.values.length := by
      by_contra hge
      rw [List.getElem?_eq_none (Nat.le_of_not_lt hge)] at hi
      exact Option.noConfusion hi
    simp only [Store.get, flagAlive]
    rw [List.getElem?_append_right (Nat.le_refl s.flags.length)]
    simp [List.getElem?_set_self, hilen]
  | none =>
    simp only [Store.get, flagAlive]
    rw [List.getElem?_append_right (Nat.le_refl s.flags.length)]
    simp

/-- All token-indexed operations fail with the use-after-remove panic on a
dead flag. -/
theorem ops_fail_of_dead {s : Store} {t : Token} (h : flagAlive s t = false) :
    s.get t = .error .useAfterRemove ∧
    (s.get_mut t).2 = .error .useAfterRemove ∧
    (s.remove t).2 = .error .useAfterRemove ∧
    ∀ w : Nat, (s.writeVia t w).2 = .error .useAfterRemove := by
  refine ⟨get_dead h, ?_, ?_, ?_⟩
  · rw [get_mut_dead h]
  · rw [remove_dead h]
  · intro w
    rw [writeVia_dead h w]

/-- The token minted by `insert` carries the freshly allocated flag, which
sits at the end of the flag heap. -/
theorem insert_token_live (s : Store) (tag v : Nat) :
    (s.insert tag v).2.live = s.flags.length := by
  cases hfe : findEmpty s.values with
  | some i => rw [insert_reuse hfe]
  | none => rw [insert_grow hfe]

/-- `insert` appends exactly one live flag cell to the flag heap. -/
theorem insert_flags (s : Store) (tag v : Nat) :
    (s.insert tag v).1.flags = s.flags ++ [true] := by
  cases hfe : findEmpty s.values with
  | some i => rw [insert_reuse hfe]
  | none => rw [insert_grow hfe]

/-- After any `remove` call through a minted token (whatever its outcome),
the flag of that token is dead. -/
theorem flag_dead_after_remove {s s1 : Store} {toks : List Token} {t : Token}
    {e : Except StoreError Nat}
    (h : Reachable s toks) (hmem : t ∈ toks)
    (hrm : s.remove t = (s1, e)) : flagAlive s1 t = false := by
  obtain ⟨hlive, hslot⟩ := reachable_storeInv h t hmem
  cases halive : flagAlive s t with
  | false =>
    rw [remove_dead halive] at hrm
    obtain ⟨h1, _⟩ := Prod.mk.injEq .. ▸ hrm
    rw [← h1]
    exact halive
  | true =>
    obtain ⟨d, hd, hdt⟩ := hslot halive
    rw [remove_live_ok halive hd hdt] at hrm
    obtain ⟨h1, _⟩ := Prod.mk.injEq .. ▸ hrm
    rw [← h1]
    show ((s.flags.set t.live false)[t.live]?).getD false = false
    rw [List.getElem?_set_self hlive]
    rfl

theorem numEmpty_replicate_none (n : Nat) :
    numEmpty (List.replicate n none) = n := by
  induction n with
  | zero => rfl
  | succ n ih => simp [numEmpty, List.replicate_succ, List.filter, ih]

/-- C1.  Round-trip: for every value `v` of a storable type (any type tag),
the token returned by `Store::insert` immediately observes, through
`Store::get`, a value equal to `v` — on every store. -/
theorem round_trip (s : Store) (tag v : Nat) :
    (s.insert tag v).1.get (s.insert tag v).2 = .ok v :=
  get_insert_aux s tag v

/-- C2.  Clone-shared liveness: once `remove` has been called through a
clone `t2` of a minted token `t`, every later `get`/`get_mut`/`remove`
(and write through `get_mut`) via `t` — and equally via `t2` — fails with
the use-after-remove panic, whatever the outcome of that `remove` call was. -/
theorem clone_shared_liveness (s s1 : Store) (toks : List Token)
    (t t2 : Token) (e : Except StoreError Nat)
    (h : Reachable s toks) (hmem : t ∈ toks) (hclone : t2 = t.clone)
    (hrm : s.remove t2 = (s1, e)) :
    (s1.get t = .error .useAfterRemove ∧
     (s1.get_mut t).2 = .error .useAfterRemove ∧
     (s1.remove t).2 = .error .useAfterRemove ∧
     ∀ w : Nat, (s1.writeVia t w).2 = .error .useAfterRemove) ∧
    (s1.get t2 = .error .useAfterRemove ∧
     (s1.get_mut t2).2 = .error .useAfterRemove ∧
     (s1.remove t2).2 = .error .useAfterRemove ∧
     ∀ w : Nat, (s1.writeVia t2 w).2 = .error .useAfterRemove) := by
  rw [Token.clone_eq] at hclone
  rw [hclone] at hrm ⊢
  have hdead : flagAlive s1 t = false := flag_dead_after_remove h hmem hrm
  exact ⟨ops_fail_of_dead hdead, ops_fail_of_dead hdead⟩

theorem clone_shared_liveness_witness :
    ({ values := [none], flags := [false] } : Store).get
        { id := 0, live := 0, tag := 0 } = .error .useAfterRemove ∧
    (({ values := [none], flags := [false] } : Store).get_mut
        { id := 0, live := 0, tag := 0 }).2 = .error .useAfterRemove ∧
    (({ values := [none], flags := [false] } : Store).remove
        { id := 0, live := 0, tag := 0 }).2 = .error .useAfterRemove ∧
    ({ values := [none], flags := [false] } : Store).get
        ({ id := 0, live := 0, tag := 0 } : Token).clone = .error .useAfterRemove ∧
    (({ values := [none], flags := [false] } : Store).remove
        ({ id := 0, live := 0, tag := 0 } : Token).clone).2 = .error .useAfterRemove := by
  have h1 : Reachable { values := [some ({ tag := 0, val := 5 }, 0)], flags := [true] }
      [{ id := 0, live := 0, tag := 0 }] :=
    Reachable.insertStep Store.new [] 0 5 Reachable.start
  obtain ⟨⟨hg, hgm, hr, _⟩, ⟨hg2, _, hr2, _⟩⟩ := clone_shared_liveness
    { values := [some ({ tag := 0, val := 5 }, 0)], flags := [true] }
    { values := [none], flags := [false] }
    [{ id := 0, live := 0, tag := 0 }]
    { id := 0, live := 0, tag := 0 }
    ({ id := 0, live := 0, tag := 0 } : Token).clone
    (.ok 5) h1 (by simp) rfl (by rfl)
  exact ⟨hg, hgm, hr, hg2, hr2⟩

/-- C3.  Relationship invariant: in every reachable store state, every
minted token whose liveness flag is still alive points at an occupied slot
holding that very flag and a value whose erased type tag matches the
static tag of the token; consequently the lookup and downcast inside `get`,
`get_mut` and `remove` (and a write through `get_mut`) all succeed for a
live token. -/
theorem live_token_invariant (s : Store) (toks : List Token) (t : Token)
    (h : Reachable s toks) (hmem : t ∈ toks) (halive : flagAlive s t = true) :
    ∃ d : Dyn, s.values[t.id]? = some (some (d, t.live)) ∧ d.tag = t.tag ∧
      s.get t = .ok d.val ∧
      s.get_mut t = (s, .ok d.val) ∧
      (s.remove t).2 = .ok d.val ∧
      ∀ w : Nat, (s.writeVia t w).2 = .ok () := by
  obtain ⟨hlive, hslot⟩ := reachable_storeInv h t hmem
  obtain ⟨d, hd, hdt⟩ := hslot halive
  refine ⟨d, hd, hdt, get_live_ok halive hd hdt, get_mut_live_ok halive hd hdt,
    ?_, ?_⟩
  · rw [remove_live_ok halive hd hdt]
  · intro w
    rw [writeVia_live_ok halive hd hdt w]

theorem live_token_invariant_witness :
    ({ values := [some ({ tag := 0, val := 5 }, 0)], flags := [true] } : Store).get
      { id := 0, live := 0, tag := 0 } = .ok 5 ∧
    ({ values := [some ({ tag := 0, val := 5 }, 0)], flags := [true] } : Store).get_mut
      { id := 0, live := 0, tag := 0 } =
      ({ values := [some ({ tag := 0, val := 5 }, 0)], flags := [true] }, .ok 5) ∧
    (({ values := [some ({ tag := 0, val := 5 }, 0)], flags := [true] } : Store).remove
      { id := 0, live := 0, tag := 0 }).2 = .ok 5 := by
  have h1 : Reachable { values := [some ({ tag := 0, val := 5 }, 0)], flags := [true] }
      [{ id := 0, live := 0, tag := 0 }] :=
    Reachable.insertStep Store.new [] 0 5 Reachable.start
  obtain ⟨d, hd, hdt, hget, hgm, hrm, hwv⟩ := live_token_invariant
    { values := [some ({ tag := 0, val := 5 }, 0)], flags := [true] }
    [{ id := 0, live := 0, tag := 0 }]
    { id := 0, live := 0, tag := 0 } h1 (by simp) (by decide)
  have hd' : (some (some ({ tag := 0, val := 5 }, 0)) : Option (Option (Dyn × Nat)))
      = some (some (d, 0)) := hd
  have hp := Option.some.inj (Option.some.inj hd')
  injection hp with h1 h2
  subst h1
  exact ⟨hget, hgm, hrm⟩

/-- C4.  First-fit placement: `insert` stores the boxed value into the
lowest-indexed empty slot when one exists (leaving the slot count
unchanged), otherwise appends a new slot at the end; the returned index of the token
index is the chosen slot.  `insert` is a total function (no failure mode). -/
theorem insert_first_fit (s : Store) (tag v : Nat) :
    ((∃ j : Nat, s.values[j]? = some none) →
       s.values[(s.insert tag v).2.id]? = some none ∧
       (∀ j : Nat, j < (s.insert tag v).2.id → s.values[j]? ≠ some none) ∧
       (s.insert tag v).1.values
         = s.values.set (s.insert tag v).2.id
             (some ({ tag := tag, val := v }, s.flags.length)) ∧
       (s.insert tag v).1.values.length = s.values.length) ∧
    ((∀ j : Nat, s.values[j]? ≠ some none) →
       (s.insert tag v).2.id = s.values.length ∧
       (s.insert tag v).1.values
         = s.values ++ [some ({ tag := tag, val := v }, s.flags.length)]) := by
  cases hfe : findEmpty s.values with
  | some i =>
    constructor
    · intro _
      rw [insert_reuse hfe]
      exact ⟨findEmpty_some hfe, fun j hj => findEmpty_min hfe j hj, rfl, by simp⟩
    · intro hfull
      exact absurd (findEmpty_some hfe) (hfull i)
  | none =>
    constructor
    · intro hex
      obtain ⟨j, hj⟩ := hex
      exact absurd hj (findEmpty_none hfe j)
    · intro _
      rw [insert_grow hfe]
      exact ⟨rfl, rfl⟩

theorem insert_first_fit_witness :
    (({ values := [none], flags := [] } : Store).values[
        ((({ values := [none], flags := [] } : Store).insert 3 4).2).id]?
      = some none ∧
     (({ values := [none], flags := [] } : Store).insert 3 4).1.values
       = [some ({ tag := 3, val := 4 }, 0)]) ∧
    ((Store.new.insert 3 4).2.id = 0 ∧
     (Store.new.insert 3 4).1.values = [some ({ tag := 3, val := 4 }, 0)]) := by
  have h1 := (insert_first_fit { values := [none], flags := [] } 3 4).1 ⟨0, rfl⟩
  have h2 := (insert_first_fit Store.new 3 4).2 (fun j hj => by
    have hj1 : ([] : List (Option (Dyn × Nat)))[j]? = some none := hj
    rw [List.getElem?_nil] at hj1
    exact Option.noConfusion hj1)
  refine ⟨⟨h1.1, ?_⟩, h2.1, ?_⟩
  · rw [h1.2.2.1]
    exact rfl
  · rw [h2.2]
    exact rfl

/-- C5.  Remove postcondition: for every live minted token, `remove` kills
the shared liveness flag (as seen by the token and any clone), empties the
slot at the index of the token, and returns exactly the stored value. -/
theorem remove_postcondition (s : Store) (toks : List Token) (t : Token)
    (h : Reachable s toks) (hmem : t ∈ toks) (halive : flagAlive s t = true) :
    ∃ d : Dyn,
      s.values[t.id]? = some (some (d, t.live)) ∧
      s.remove t = ({ values := s.values.set t.id none,
                      flags := s.flags.set t.live false }, .ok d.val) ∧
      flagAlive (s.remove t).1 t = false ∧
      flagAlive (s.remove t).1 t.clone = false ∧
      (s.remove t).1.values[t.id]? = some none := by
  obtain ⟨hlive, hslot⟩ := reachable_storeInv h t hmem
  obtain ⟨d, hd, hdt⟩ := hslot halive
  have hid : t.id < s.values.length := lt_length_of_getElem?_some hd
  have hrm := remove_live_ok halive hd hdt
  have hdead : flagAlive (s.remove t).1 t = false := by
    rw [hrm]
    show ((s.flags.set t.live false)[t.live]?).getD false = false
    rw [List.getElem?_set_self hlive]
    rfl
  refine ⟨d, hd, hrm, hdead, ?_, ?_⟩
  · rw [Token.clone_eq]
    exact hdead
  · rw [hrm]
    show (s.values.set t.id none)[t.id]? = some none
    rw [List.getElem?_set_self hid]

theorem remove_postcondition_witness :
    ({ values := [some ({ tag := 0, val := 5 }, 0)], flags := [true] } : Store).remove
      { id := 0, live := 0, tag := 0 }
      = ({ values := [none], flags := [false] }, .ok 5) ∧
    flagAlive
      (({ values := [some ({ tag := 0, val := 5 }, 0)], flags := [true] } : Store).remove
        { id := 0, live := 0, tag := 0 }).1 { id := 0, live := 0, tag := 0 } = false ∧
    ((({ values := [some ({ tag := 0, val := 5 }, 0)], flags := [true] } : Store).remove
        { id := 0, live := 0, tag := 0 }).1).values[(0 : Nat)]? = some none := by
  have h1 : Reachable { values := [some ({ tag := 0, val := 5 }, 0)], flags := [true] }
      [{ id := 0, live := 0, tag := 0 }] :=
    Reachable.insertStep Store.new [] 0 5 Reachable.start
  obtain ⟨d, hd, hrm, hdead, _, hempty⟩ := remove_postcondition
    { values := [some ({ tag := 0, val := 5 }, 0)], flags := [true] }
    [{ id := 0, live := 0, tag := 0 }]
    { id := 0, live := 0, tag := 0 } h1 (by simp) (by decide)
  have hd' : (some (some ({ tag := 0, val := 5 }, 0)) : Option (Option (Dyn × Nat)))
      = some (some (d, 0)) := hd
  have hp := Option.some.inj (Option.some.inj hd')
  injection hp with hp1 hp2
  subst hp1
  exact ⟨hrm, hdead, hempty⟩

/-- C7.  No double removal: after one successful `remove` through a minted
token, a second `remove` through any token sharing the same liveness flag
(any clone) fails with the use-after-remove panic. -/
theorem no_double_remove (s s1 : Store) (toks : List Token) (t t2 : Token)
    (v : Nat) (h : Reachable s toks) (hmem : t ∈ toks)
    (hshare : t2.live = t.live) (hrm : s.remove t = (s1, .ok v)) :
    (s1.remove t2).2 = .error .useAfterRemove := by
  have hdead : flagAlive s1 t = false := flag_dead_after_remove h hmem hrm
  have hdead2 : flagAlive s1 t2 = false := by
    show (s1.flags[t2.live]?).getD false = false
    rw [hshare]
    exact hdead
  rw [remove_dead hdead2]

theorem no_double_remove_witness :
    ((({ values := [none], flags := [false] } : Store).remove
      { id := 0, live := 0, tag := 0 }).2) = .error .useAfterRemove := by
  have h1 : Reachable { values := [some ({ tag := 0, val := 5 }, 0)], flags := [true] }
      [{ id := 0, live := 0, tag := 0 }] :=
    Reachable.insertStep Store.new [] 0 5 Reachable.start
  exact no_double_remove
    { values := [some ({ tag := 0, val := 5 }, 0)], flags := [true] }
    { values := [none], flags := [false] }
    [{ id := 0, live := 0, tag := 0 }]
    { id := 0, live := 0, tag := 0 }
    { id := 0, live := 0, tag := 0 }
    5 h1 (by simp) rfl (by rfl)

/-- C6.  Independence after slot reuse: after removing a value through
token `tA` and inserting a new value `b` (which reuses the slot of `tA` when it
is the first empty one), the new token `tB` observes `b`, carries a fresh
liveness flag distinct from that of `tA`, and `tA` stays dead forever:
`get`/`get_mut`/`remove` through `tA` keep failing with use-after-remove. -/
theorem independence_after_reuse (s s1 s2 : Store) (toks : List Token)
    (tA tB : Token) (a tagB b : Nat)
    (h : Reachable s toks) (hmem : tA ∈ toks)
    (hrm : s.remove tA = (s1, .ok a))
    (hins : s1.insert tagB b = (s2, tB)) :
    s2.get tB = .ok b ∧
    tB.live ≠ tA.live ∧
    flagAlive s2 tA = false ∧
    s2.get tA = .error .useAfterRemove ∧
    (s2.get_mut tA).2 = .error .useAfterRemove ∧
    (s2.remove tA).2 = .error .useAfterRemove ∧
    ((∀ j : Nat, j < tA.id → s1.values[j]? ≠ some none) → tB.id = tA.id) := by
  obtain ⟨hlive, hslot⟩ := reachable_storeInv h tA hmem
  obtain ⟨halive, d, fid, hd, hdt, hval, hs1⟩ := remove_ok_inv hrm
  obtain ⟨d0, hd0, hdt0⟩ := hslot halive
  have hid : tA.id < s.values.length := lt_length_of_getElem?_some hd0
  rw [hd0] at hd
  have hp := Option.some.inj (Option.some.inj hd)
  injection hp with hp1 hp2
  subst hp2
  have hflags2 : s2.flags = s1.flags ++ [true] := by
    have hf := insert_flags s1 tagB b
    rw [hins] at hf
    exact hf
  have htBlive : tB.live = s1.flags.length := by
    have hf := insert_token_live s1 tagB b
    rw [hins] at hf
    exact hf
  have hs1len : s1.flags.length = s.flags.length := by
    rw [hs1]
    simp
  have hlivelt : tA.live < s1.flags.length := by
    rw [hs1len]
    exact hlive
  have hne : tB.live ≠ tA.live := by
    rw [htBlive]
    omega
  have hdead1 : flagAlive s1 tA = false := by
    rw [hs1]
    show ((s.flags.set tA.live false)[tA.live]?).getD false = false
    rw [List.getElem?_set_self hlive]
    rfl
  have hdead2 : flagAlive s2 tA = false := by
    show (s2.flags[tA.live]?).getD false = false
    rw [hflags2, List.getElem?_append_left hlivelt]
    exact hdead1
  obtain ⟨hg, hgm, hr, hw⟩ := ops_fail_of_dead hdead2
  have hgetB : s2.get tB = .ok b := by
    have hgb := get_insert_aux s1 tagB b
    rw [hins] at hgb
    exact hgb
  refine ⟨hgetB, hne, hdead2, hg, hgm, hr, ?_⟩
  intro hmin
  have hempty : s1.values[tA.id]? = some none := by
    rw [hs1]
    show (s.values.set tA.id none)[tA.id]? = some none
    rw [List.getElem?_set_self hid]
  have hfe : findEmpty s1.values = some tA.id := findEmpty_of hempty hmin
  have hreq := insert_reuse hfe tagB b
  rw [hins] at hreq
  have htok := (Prod.mk.injEq .. ▸ hreq).2
  have hids : tB.id
      = ({ id := tA.id, live := s1.flags.length, tag := tagB } : Token).id :=
    congrArg Token.id htok
  exact hids

theorem independence_after_reuse_witness :
    ({ values := [some ({ tag := 1, val := 7 }, 1)], flags := [false, true] } : Store).get
      { id := 0, live := 1, tag := 1 } = .ok 7 ∧
    flagAlive { values := [some ({ tag := 1, val := 7 }, 1)], flags := [false, true] }
      { id := 0, live := 0, tag := 0 } = false ∧
    ({ values := [some ({ tag := 1, val := 7 }, 1)], flags := [false, true] } : Store).get
      { id := 0, live := 0, tag := 0 } = .error .useAfterRemove ∧
    (({ values := [some ({ tag := 1, val := 7 }, 1)], flags := [false, true] } : Store).remove
      { id := 0, live := 0, tag := 0 }).2 = .error .useAfterRemove ∧
    ({ id := 0, live := 1, tag := 1 } : Token).id = 0 := by
  have h1 : Reachable { values := [some ({ tag := 0, val := 5 }, 0)], flags := [true] }
      [{ id := 0, live := 0, tag := 0 }] :=
    Reachable.insertStep Store.new [] 0 5 Reachable.start
  obtain ⟨hgB, hne, hdead, hg, hgm, hr, himp⟩ := independence_after_reuse
    { values := [some ({ tag := 0, val := 5 }, 0)], flags := [true] }
    { values := [none], flags := [false] }
    { values := [some ({ tag := 1, val := 7 }, 1)], flags := [false, true] }
    [{ id := 0, live := 0, tag := 0 }]
    { id := 0, live := 0, tag := 0 }
    { id := 0, live := 1, tag := 1 }
    5 1 7 h1 (by simp) (by rfl) (by rfl)
  exact ⟨hgB, hdead, hg, hr, himp (fun j hj => absurd hj (Nat.not_lt_zero j))⟩

/-- C8.  Slot reuse bound: inserting N values into an empty store, removing
all N, then inserting M ≤ N new values leaves the slot count at N; moreover
the slot sequence never shrinks under any operation and `insert` grows it
only when no slot is empty. -/
theorem slot_reuse_bound :
    (∀ (vs ws : List (Nat × Nat)), ws.length ≤ vs.length →
      (insertMany
          (removeMany (insertMany Store.new vs).1 (insertMany Store.new vs).2)
          ws).1.values.length = vs.length) ∧
    (∀ (s : Store) (tag v : Nat),
      s.values.length ≤ (s.insert tag v).1.values.length ∧
      ((∃ j : Nat, s.values[j]? = some none) →
        (s.insert tag v).1.values.length = s.values.length)) ∧
    (∀ (s : Store) (t : Token), (s.remove t).1.values.length = s.values.length) ∧
    (∀ (s : Store) (t : Token) (v : Nat),
      (s.writeVia t v).1.values.length = s.values.length) := by
  refine ⟨?_, ?_, remove_length, writeVia_length⟩
  · intro vs ws hle
    have h1 : insertMany Store.new vs
        = ({ values := diagVals vs 0, flags := List.replicate vs.length true },
           tokList vs 0 0) := by
      have hf := insertMany_full vs Store.new rfl
      simpa [Store.new] using hf
    have h2 : removeMany
        { values := diagVals vs 0, flags := List.replicate vs.length true }
        (tokList vs 0 0)
        = { values := List.replicate vs.length none,
            flags := List.replicate vs.length false } := by
      have hr := removeMany_diag vs [] [] rfl
      simpa using hr
    rw [h1]
    dsimp only
    rw [h2]
    have h3 := insertMany_reuse ws
      { values := List.replicate vs.length none,
        flags := List.replicate vs.length false }
      (by
        show ws.length ≤ numEmpty (List.replicate vs.length none)
        rw [numEmpty_replicate_none]
        exact hle)
    rw [h3.1]
    simp
  · intro s tag v
    cases hfe : findEmpty s.values with
    | some i =>
      rw [insert_reuse hfe]
      exact ⟨by simp, fun _ => by simp⟩
    | none =>
      rw [insert_grow hfe]
      constructor
      · simp
      · intro hex
        obtain ⟨j, hj⟩ := hex
        exact absurd hj (findEmpty_none hfe j)

theorem slot_reuse_bound_witness :
    (insertMany
        (removeMany (insertMany Store.new [(0, 1), (2, 3)]).1
          (insertMany Store.new [(0, 1), (2, 3)]).2)
        [(4, 5)]).1.values.length = 2 ∧
    (({ values := [none], flags := [] } : Store).insert 0 0).1.values.length
      = ({ values := [none], flags := [] } : Store).values.length := by
  constructor
  · exact slot_reuse_bound.1 [(0, 1), (2, 3)] [(4, 5)] (by decide)
  · exact (slot_reuse_bound.2.1 { values := [none], flags := [] } 0 0).2 ⟨0, rfl⟩

/-- C9.  Mutation visibility: if the mutable reference returned by
`get_mut` is used to replace the stored value by `v`, a subsequent `get`
through the same token observes `v`, and no other slot or flag changes. -/
theorem mutation_visibility (s s1 : Store) (t : Token) (v : Nat)
    (hw : s.writeVia t v = (s1, .ok ())) :
    s1.get t = .ok v ∧
    (∀ j : Nat, j ≠ t.id → s1.values[j]? = s.values[j]?) ∧
    s1.flags = s.flags := by
  obtain ⟨halive, d, fid, hd, hdt, hs1⟩ := writeVia_ok_inv hw
  have hid : t.id < s.values.length := lt_length_of_getElem?_some hd
  subst hs1
  refine ⟨?_, ?_, rfl⟩
  · exact get_live_ok
      (s := { values := s.values.set t.id (some ({ tag := d.tag, val := v }, fid)),
              flags := s.flags })
      halive (List.getElem?_set_self hid) hdt
  · intro j hj
    show (s.values.set t.id _)[j]? = s.values[j]?
    rw [List.getElem?_set_ne (fun hc => hj hc.symm)]

theorem mutation_visibility_witness :
    ({ values := [some ({ tag := 0, val := 9 }, 0)], flags := [true] } : Store).get
      { id := 0, live := 0, tag := 0 } = .ok 9 ∧
    ({ values := [some ({ tag := 0, val := 9 }, 0)], flags := [true] } : Store).flags
      = ({ values := [some ({ tag := 0, val := 5 }, 0)], flags := [true] } : Store).flags := by
  have h := mutation_visibility
    { values := [some ({ tag := 0, val := 5 }, 0)], flags := [true] }
    { values := [some ({ tag := 0, val := 9 }, 0)], flags := [true] }
    { id := 0, live := 0, tag := 0 } 9 (by rfl)
  exact ⟨h.1, h.2.2⟩

/-- C10.  Atomicity on use-after-remove failure: called with a token whose
liveness flag is dead, `remove`, `get_mut` (and a write through it) fail
before performing any mutation — the returned store is exactly the input
store, slots and flags included. -/
theorem dead_failure_atomic (s : Store) (t : Token) (v : Nat)
    (h : flagAlive s t = false) :
    s.remove t = (s, .error .useAfterRemove) ∧
    s.get_mut t = (s, .error .useAfterRemove) ∧
    s.writeVia t v = (s, .error .useAfterRemove) :=
  ⟨remove_dead h, get_mut_dead h, writeVia_dead h v⟩

theorem dead_failure_atomic_witness :
    ({ values := [none], flags := [false] } : Store).remove
      { id := 0, live := 0, tag := 0 }
      = ({ values := [none], flags := [false] }, .error .useAfterRemove) ∧
    ({ values := [none], flags := [false] } : Store).get_mut
      { id := 0, live := 0, tag := 0 }
      = ({ values := [none], flags := [false] }, .error .useAfterRemove) ∧
    ({ values := [none], flags := [false] } : Store).writeVia
      { id := 0, live := 0, tag := 0 } 3
      = ({ values := [none], flags := [false] }, .error .useAfterRemove) :=
  dead_failure_atomic { values := [none], flags := [false] }
    { id := 0, live := 0, tag := 0 } 3 (by decide)

end TokenStore
